import Mathlib

/-!
Verification of the public-transport route-optimization program (src/app.py).

The program keeps an undirected networkx graph whose edges carry three
numeric attributes (time, cost, distance), a validator over that graph, and
a multi-criteria Dijkstra search that scalarizes time and cost with two
coefficients alpha and beta.  We embed the graph as an insertion-ordered
association list (mirroring Python dict semantics), numbers as exact
rationals, and the heapq-driven search loop as a fuelled recursion whose
fuel is shown sufficient, so every definition is executable.
-/

namespace RouteOpt

/-- Attribute dictionary of one edge.  Each attribute is optional, modelling
a Python dict that may lack the corresponding key. -/
structure EdgeData where
  time : Option ℚ
  cost : Option ℚ
  distance : Option ℚ
deriving DecidableEq

/-- The networkx graph: an adjacency structure mapping each node to its
neighbor dictionary, both in insertion order. -/
structure Graph where
  adj : List (String × List (String × EdgeData))
deriving DecidableEq

/-- Python dict lookup over an insertion-ordered association list. -/
def dictGet {β : Type} (k : String) : List (String × β) → Option β
  | [] => none
  | (a, b) :: rest => if a = k then some b else dictGet k rest

/-- The node list of the graph (`graph.nodes`), in insertion order. -/
def Graph.nodeList (G : Graph) : List String := G.adj.map Prod.fst

/-- `graph[u][v]`: the attribute dictionary of the edge from u to v. -/
def Graph.edgeLookup (G : Graph) (u v : String) : Option EdgeData :=
  match dictGet u G.adj with
  | none => none
  | some l => dictGet v l

/-- Insert or overwrite key v in a neighbor dictionary, keeping dict
insertion-order semantics. -/
def setPair (v : String) (d : EdgeData) : List (String × EdgeData) → List (String × EdgeData)
  | [] => [(v, d)]
  | (k, d0) :: rest => if k = v then (v, d) :: rest else (k, d0) :: setPair v d rest

/-- Register node u in the adjacency structure if absent (appended last,
as a fresh Python dict key is). -/
def ensureNode (u : String) (adj : List (String × List (String × EdgeData))) :
    List (String × List (String × EdgeData)) :=
  if (dictGet u adj).isSome then adj else adj ++ [(u, [])]

/-- Overwrite the entry for v inside node u's neighbor dictionary. -/
def setAdj (u v : String) (d : EdgeData) :
    List (String × List (String × EdgeData)) → List (String × List (String × EdgeData))
  | [] => []
  | (k, l) :: rest => if k = u then (k, setPair v d l) :: rest else (k, l) :: setAdj u v d rest

/-- `G.add_edge(u, v, time=t, cost=c, distance=dist)`: registers both
endpoints and stores the attribute dictionary in both directions. -/
def Graph.add_edge (G : Graph) (u v : String) (t c dist : ℚ) : Graph :=
  let d : EdgeData := ⟨some t, some c, some dist⟩
  ⟨setAdj v u d (setAdj u v d (ensureNode v (ensureNode u G.adj)))⟩

/-- MODULE 1: the fixed demonstration network of src/app.py, built edge by
edge exactly in source order. -/
def build_transport_graph : Graph :=
  ((((((((Graph.mk []).add_edge "A" "B" 10 5 3).add_edge
        "A" "C" 15 4 5).add_edge
        "B" "D" 12 6 4).add_edge
        "C" "D" 8 3 2).add_edge
        "C" "E" 10 5 4).add_edge
        "D" "E" 6 2 1).add_edge
        "D" "F" 15 6 5).add_edge
        "E" "F" 8 3 2

/-- `graph.number_of_nodes()`. -/
def Graph.number_of_nodes (G : Graph) : Nat := G.adj.length

/-- `graph.number_of_edges()`: half the degree sum, a self-loop adding two
to its endpoint's degree. -/
def Graph.number_of_edges (G : Graph) : Nat :=
  ((G.adj.map (fun p => p.2.length + (if (dictGet p.1 p.2).isSome then 1 else 0))).sum) / 2

/-- Edges reported from one node: neighbors not seen as earlier nodes. -/
def edgesFrom (n : String) (seen : List String) :
    List (String × EdgeData) → List (String × String × EdgeData)
  | [] => []
  | (v, d) :: rest =>
    if v ∈ seen then edgesFrom n seen rest else (n, v, d) :: edgesFrom n seen rest

/-- `graph.edges(data=True)`: every edge reported once, from the endpoint
appearing first in node insertion order. -/
def edgesAux : List (String × List (String × EdgeData)) → List String →
    List (String × String × EdgeData)
  | [], _ => []
  | (n, nbrs) :: rest, seen => edgesFrom n seen nbrs ++ edgesAux rest (n :: seen)

/-- The edge list with data, as iterated by `validate_graph`. -/
def Graph.edges_data (G : Graph) : List (String × String × EdgeData) := edgesAux G.adj []

/-- First edge of the iteration missing one of the three attributes. -/
def firstMissing : List (String × String × EdgeData) → Option (String × String)
  | [] => none
  | (u, v, d) :: rest =>
    if d.time.isNone || d.cost.isNone || d.distance.isNone then some (u, v)
    else firstMissing rest

/-- GRAPH VALIDATION (MODULE 1): the three ordered checks of
`validate_graph` in src/app.py. -/
def validate_graph (G : Graph) : Bool × String :=
  if G.number_of_nodes = 0 then (false, "Graph has no nodes")
  else if G.number_of_edges = 0 then (false, "Graph has no edges")
  else
    match firstMissing G.edges_data with
    | some (u, v) => (false, "Missing weights on edge " ++ u ++ " - " ++ v)
    | none => (true, "Graph validation successful. Module-1 output is complete and ready to be used by Module-2.")

/-- A heap entry `(current_cost, node, path)` as pushed on the Python heap. -/
structure Entry where
  weight : ℚ
  node : String
  path : List String
deriving DecidableEq

/-- Python list comparison: lexicographic, a strict prefix being smaller. -/
def listLtB : List String → List String → Bool
  | [], [] => false
  | [], _ :: _ => true
  | _ :: _, [] => false
  | a :: as, b :: bs => if a < b then true else if b < a then false else listLtB as bs

/-- Python tuple comparison on heap entries: weight, then node, then path. -/
def entryLtB (e f : Entry) : Bool :=
  if e.weight < f.weight then true
  else if f.weight < e.weight then false
  else if e.node < f.node then true
  else if f.node < e.node then false
  else listLtB e.path f.path

/-- `heapq.heappop`: removes and returns a minimal entry of the frontier
(the first minimal occurrence; fully equal entries are interchangeable). -/
def popMin : List Entry → Option (Entry × List Entry)
  | [] => none
  | e :: es =>
    match popMin es with
    | none => some (e, [])
    | some (m, rest) => if entryLtB m e then some (m, e :: rest) else some (e, es)

/-- Runtime failures the search can raise: the networkx error for a
neighbor query on an absent node, and the KeyError for a missing edge
attribute. -/
inductive Err where
  | nodeNotFound (s : String)
  | keyError
deriving DecidableEq

/-- The neighbor-expansion loop body: for each unvisited neighbor, read the
time and cost attributes (KeyError if absent) and build the pushed entry. -/
def expand (a b w : ℚ) (path vis : List String) :
    List (String × EdgeData) → Except Err (List Entry)
  | [] => .ok []
  | (v, d) :: rest =>
    if v ∈ vis then expand a b w path vis rest
    else
      match d.time, d.cost with
      | some t, some c =>
        match expand a b w path vis rest with
        | .error er => .error er
        | .ok es => .ok (⟨w + (a * t + b * c), v, path⟩ :: es)
      | _, _ => .error .keyError

/-- The `while pq:` loop of `multi_criteria_dijkstra`, as a fuelled
recursion; `none` means the fuel ran out (shown impossible from the fuel
bound used by the wrapper below). -/
def dijkstraLoop (G : Graph) (dest : String) (a b : ℚ) :
    Nat → List Entry → List String → Option (Except Err (WithTop ℚ × List String))
  | 0, _, _ => none
  | fuel + 1, pq, vis =>
    match popMin pq with
    | none => some (.ok (⊤, []))
    | some (e, rest) =>
      if e.node ∈ vis then dijkstraLoop G dest a b fuel rest vis
      else
        let path := e.path ++ [e.node]
        let vis1 := e.node :: vis
        if e.node = dest then some (.ok ((e.weight : WithTop ℚ), path))
        else
          match dictGet e.node G.adj with
          | none => some (.error (.nodeNotFound e.node))
          | some l =>
            match expand a b e.weight path vis1 l with
            | .error er => some (.error er)
            | .ok pushes => dijkstraLoop G dest a b fuel (rest ++ pushes) vis1

/-- Total size of all neighbor dictionaries. -/
def Graph.adjSize (G : Graph) : Nat := (G.adj.map (fun p => p.2.length)).sum

/-- Fuel sufficient for the loop to run to completion (proved below). -/
def Graph.fuel (G : Graph) : Nat := (1 + G.adjSize) * G.adj.length + 2

/-- MODULE 2: `multi_criteria_dijkstra(graph, source, destination, alpha,
beta)`.  Returns the scalarized weight and path, `(⊤, [])` for an exhausted
frontier (`float("inf")` in the source), or the raised error. -/
def multi_criteria_dijkstra (G : Graph) (source destination : String) (a b : ℚ) :
    Except Err (WithTop ℚ × List String) :=
  (dijkstraLoop G destination a b G.fuel [⟨0, source, []⟩] []).getD (.ok (⊤, []))

/-- A path of the network from s, traversed edge by edge. -/
inductive PathTo (G : Graph) (s : String) : String → List String → Prop
  | single : PathTo G s s [s]
  | cons (v w : String) (p : List String) (d : EdgeData) :
      PathTo G s v p → G.edgeLookup v w = some d → PathTo G s w (p ++ [w])

/-- The scalarized weight `alpha * time + beta * cost` of one edge. -/
def eW (a b : ℚ) (d : EdgeData) : ℚ := a * d.time.getD 0 + b * d.cost.getD 0

/-- Total scalarized weight of a stop sequence, summed over consecutive
pairs. -/
def weightOf (G : Graph) (a b : ℚ) : List String → ℚ
  | u :: v :: rest =>
    (match G.edgeLookup u v with
     | some d => eW a b d
     | none => 0) + weightOf G a b (v :: rest)
  | _ => 0

/-- Some path of the network leads from s to t. -/
def Reachable (G : Graph) (s t : String) : Prop := ∃ p, PathTo G s t p

/-- Well-formedness every Python-dict-backed graph enjoys: no duplicate
keys at either dictionary level. -/
def Graph.WF (G : Graph) : Prop :=
  (G.adj.map Prod.fst).Nodup ∧ ∀ p ∈ G.adj, (p.2.map Prod.fst).Nodup

/-- Every neighbor key is itself a node (networkx registers both endpoints
of every edge). -/
def Graph.Closed (G : Graph) : Prop :=
  ∀ p ∈ G.adj, ∀ q ∈ p.2, q.1 ∈ G.nodeList

/-- Every edge carries the two attributes the search reads. -/
def Graph.HasTimeCost (G : Graph) : Prop :=
  ∀ p ∈ G.adj, ∀ q ∈ p.2, (q.2.time).isSome ∧ (q.2.cost).isSome

/-- Every edge carries non-negative time and cost attributes. -/
def Graph.NonnegWeights (G : Graph) : Prop :=
  ∀ p ∈ G.adj, ∀ q ∈ p.2,
    ((q.2.time).isSome ∧ 0 ≤ (q.2.time).getD 0) ∧ ((q.2.cost).isSome ∧ 0 ≤ (q.2.cost).getD 0)

instance (G : Graph) : Decidable G.WF := by
  unfold Graph.WF
  infer_instance

instance (G : Graph) : Decidable G.Closed := by
  unfold Graph.Closed
  infer_instance

instance (G : Graph) : Decidable G.HasTimeCost := by
  unfold Graph.HasTimeCost
  infer_instance

instance (G : Graph) : Decidable G.NonnegWeights := by
  unfold Graph.NonnegWeights
  infer_instance

/-- Nodes not yet finalized. -/
def unvis (G : Graph) (vis : List String) : Nat :=
  (G.nodeList.filter (fun x => decide (x ∉ vis))).length

/-- Invariant satisfied by every frontier entry: its stored path, extended
with its node, is a simple path of the network from the source whose prefix
stops are all finalized. -/
def EntryPath (G : Graph) (source : String) (vis : List String) (e : Entry) : Prop :=
  PathTo G source e.node (e.path ++ [e.node]) ∧ (e.path ++ [e.node]).Nodup ∧
    ∀ x ∈ e.path, x ∈ vis

/-- While the source is unfinalized, the frontier keeps an entry for it of
weight at most 0 (the seed entry). -/
def SourceInv (source : String) (pq : List Entry) (vis : List String) : Prop :=
  source ∉ vis → ∃ f ∈ pq, f.node = source ∧ f.weight ≤ 0

/-- Every edge from a finalized stop to an unfinalized one is covered by a
frontier entry whose weight is at most any finalized-side path plus that
edge's weight. -/
def BoundaryInv (G : Graph) (source : String) (a b : ℚ)
    (pq : List Entry) (vis : List String) : Prop :=
  ∀ v ∈ vis, ∀ l, dictGet v G.adj = some l → ∀ m d, (m, d) ∈ l → m ∉ vis →
    ∃ f ∈ pq, f.node = m ∧
      ∀ Q, PathTo G source v Q → f.weight ≤ weightOf G a b Q + eW a b d

/-- A network holding the single isolated stop A. -/
def gOne : Graph := ⟨[("A", [])]⟩

/-- A network holding the two isolated stops A and B. -/
def gTwo : Graph := ⟨[("A", []), ("B", [])]⟩

/-! ### Dictionary lemmas -/

theorem dictGet_mem {β : Type} {k : String} {l : List (String × β)} {b : β}
    (h : dictGet k l = some b) : (k, b) ∈ l := by
  induction l with
  | nil => simp [dictGet] at h
  | cons p rest ih =>
    obtain ⟨a, c⟩ := p
    by_cases hk : a = k
    · subst hk
      simp [dictGet] at h
      simp [h]
    · simp [dictGet, hk] at h
      exact List.mem_cons_of_mem _ (ih h)

theorem dictGet_isSome_of_mem {β : Type} {k : String} {l : List (String × β)} {b : β}
    (h : (k, b) ∈ l) : ∃ c, dictGet k l = some c := by
  induction l with
  | nil => simp at h
  | cons p rest ih =>
    obtain ⟨a, c⟩ := p
    by_cases hk : a = k
    · exact ⟨c, by simp [dictGet, hk]⟩
    · rcases List.mem_cons.mp h with heq | hmem
      · exact absurd (congrArg Prod.fst heq).symm hk
      · simpa [dictGet, hk] using ih hmem

theorem dictGet_isSome_of_mem_keys {β : Type} {k : String} {l : List (String × β)}
    (h : k ∈ l.map Prod.fst) : ∃ c, dictGet k l = some c := by
  rcases List.mem_map.mp h with ⟨⟨a, c⟩, hmem, hfst⟩
  simp only at hfst
  subst hfst
  exact dictGet_isSome_of_mem hmem

theorem dictGet_none_of_not_mem_keys {β : Type} {k : String} {l : List (String × β)}
    (h : k ∉ l.map Prod.fst) : dictGet k l = none := by
  induction l with
  | nil => rfl
  | cons p rest ih =>
    obtain ⟨a, c⟩ := p
    simp only [List.map_cons, List.mem_cons, not_or] at h
    have hak : a ≠ k := fun hc => h.1 hc.symm
    simp [dictGet, hak, ih h.2]

theorem dictGet_of_mem_nodup {β : Type} {k : String} {l : List (String × β)} {b : β}
    (hnd : (l.map Prod.fst).Nodup) (h : (k, b) ∈ l) : dictGet k l = some b := by
  induction l with
  | nil => simp at h
  | cons p rest ih =>
    obtain ⟨a, c⟩ := p
    simp only [List.map_cons, List.nodup_cons] at hnd
    rcases List.mem_cons.mp h with heq | hmem
    · obtain ⟨h1, h2⟩ := Prod.mk.injEq .. ▸ heq.symm
      simp [dictGet, h1, h2]
    · have hak : a ≠ k := by
        intro hak
        exact hnd.1 (hak ▸ List.mem_map.mpr ⟨(k, b), hmem, rfl⟩)
      simp [dictGet, hak, ih hnd.2 hmem]

theorem mem_keys_of_dictGet {β : Type} {k : String} {l : List (String × β)} {b : β}
    (h : dictGet k l = some b) : k ∈ l.map Prod.fst :=
  List.mem_map.mpr ⟨(k, b), dictGet_mem h, rfl⟩

/-! ### Heap-pop lemmas -/

theorem entryLtB_true_le {e f : Entry} (h : entryLtB e f = true) : e.weight ≤ f.weight := by
  unfold entryLtB at h
  split_ifs at h with h1 h2 h3 h4
  · exact le_of_lt h1
  · exact le_of_not_lt h2
  · exact le_of_not_lt h2

theorem entryLtB_false_le {e f : Entry} (h : entryLtB e f = false) : f.weight ≤ e.weight := by
  unfold entryLtB at h
  split_ifs at h with h1 h2 h3 h4
  · exact le_of_lt h2
  · exact le_of_not_lt h1
  · exact le_of_not_lt h1

theorem popMin_eq_none {l : List Entry} : popMin l = none ↔ l = [] := by
  cases l with
  | nil => simp [popMin]
  | cons e es =>
    simp only [popMin]
    constructor
    · intro h
      cases hrec : popMin es with
      | none => rw [hrec] at h; simp at h
      | some pr => rw [hrec] at h; obtain ⟨m, rest⟩ := pr; by_cases hlt : entryLtB m e <;> simp [hlt] at h
    · intro h
      simp at h

theorem popMin_split {l : List Entry} {e : Entry} {r : List Entry}
    (h : popMin l = some (e, r)) : ∃ l1 l2, l = l1 ++ e :: l2 ∧ r = l1 ++ l2 := by
  induction l generalizing e r with
  | nil => simp [popMin] at h
  | cons a es ih =>
    simp only [popMin] at h
    cases hrec : popMin es with
    | none =>
      rw [hrec] at h
      obtain ⟨h1, h2⟩ := Prod.mk.injEq .. ▸ (Option.some.injEq .. ▸ h)
      exact ⟨[], [], by simp [← h1, popMin_eq_none.mp hrec], by simp [← h2]⟩
    | some pr =>
      obtain ⟨m, rest⟩ := pr
      rw [hrec] at h
      by_cases hlt : entryLtB m a
      · simp only [hlt, if_true] at h
        obtain ⟨h1, h2⟩ := Prod.mk.injEq .. ▸ (Option.some.injEq .. ▸ h)
        obtain ⟨l1, l2, hsplit, hrest⟩ := ih (h1 ▸ hrec)
        exact ⟨a :: l1, l2, by simp [hsplit], by simp [← h2, hrest]⟩
      · simp only [hlt] at h
        obtain ⟨h1, h2⟩ := Prod.mk.injEq .. ▸ (Option.some.injEq .. ▸ h)
        exact ⟨[], es, by simp [← h1], by simp [← h2]⟩

theorem popMin_min {l : List Entry} {e : Entry} {r : List Entry}
    (h : popMin l = some (e, r)) : ∀ f ∈ l, e.weight ≤ f.weight := by
  induction l generalizing e r with
  | nil => simp [popMin] at h
  | cons a es ih =>
    simp only [popMin] at h
    cases hrec : popMin es with
    | none =>
      rw [hrec] at h
      obtain ⟨h1, _⟩ := Prod.mk.injEq .. ▸ (Option.some.injEq .. ▸ h)
      intro f hf
      rcases List.mem_cons.mp hf with hfa | hfes
      · exact le_of_eq (by rw [← h1, hfa])
      · exact absurd (popMin_eq_none.mp hrec ▸ hfes) (List.not_mem_nil f)
    | some pr =>
      obtain ⟨m, rest⟩ := pr
      rw [hrec] at h
      by_cases hlt : entryLtB m a
      · simp only [hlt, if_true] at h
        obtain ⟨h1, _⟩ := Prod.mk.injEq .. ▸ (Option.some.injEq .. ▸ h)
        intro f hf
        rcases List.mem_cons.mp hf with hfa | hfes
        · exact hfa ▸ h1 ▸ entryLtB_true_le hlt
        · exact h1 ▸ ih hrec f hfes
      · simp only [hlt] at h
        obtain ⟨h1, _⟩ := Prod.mk.injEq .. ▸ (Option.some.injEq .. ▸ h)
        intro f hf
        rcases List.mem_cons.mp hf with hfa | hfes
        · exact le_of_eq (by rw [← h1, hfa])
        · have hm := ih hrec f hfes
          have := entryLtB_false_le (Bool.not_eq_true _ ▸ hlt)
          rw [← h1]
          linarith

theorem popMin_mem {l : List Entry} {e : Entry} {r : List Entry}
    (h : popMin l = some (e, r)) : e ∈ l := by
  obtain ⟨l1, l2, hl, _⟩ := popMin_split h
  simp [hl]

theorem popMin_length {l : List Entry} {e : Entry} {r : List Entry}
    (h : popMin l = some (e, r)) : l.length = r.length + 1 := by
  obtain ⟨l1, l2, hl, hr⟩ := popMin_split h
  simp [hl, hr]
  omega

theorem popMin_mem_rest {l : List Entry} {e : Entry} {r : List Entry}
    (h : popMin l = some (e, r)) {f : Entry} (hf : f ∈ l) (hne : f ≠ e) : f ∈ r := by
  obtain ⟨l1, l2, hl, hr⟩ := popMin_split h
  subst hl hr
  rcases List.mem_append.mp hf with h1 | h2
  · exact List.mem_append.mpr (Or.inl h1)
  · rcases List.mem_cons.mp h2 with heq | h3
    · exact absurd heq hne
    · exact List.mem_append.mpr (Or.inr h3)

/-! ### Expansion lemmas -/

theorem expand_ok_mem {a b w : ℚ} {path vis : List String} {l : List (String × EdgeData)}
    {es : List Entry} (h : expand a b w path vis l = .ok es) :
    ∀ x ∈ es, ∃ v d, (v, d) ∈ l ∧ v ∉ vis ∧ (d.time).isSome ∧ (d.cost).isSome ∧
      x = ⟨w + eW a b d, v, path⟩ := by
  induction l generalizing es with
  | nil =>
    simp only [expand, Except.ok.injEq] at h
    subst h
    intro x hx
    simp at hx
  | cons p rest ih =>
    obtain ⟨v, d⟩ := p
    simp only [expand] at h
    by_cases hv : v ∈ vis
    · rw [if_pos hv] at h
      intro x hx
      obtain ⟨v2, d2, hm, hnv, ht, hc, hx2⟩ := ih h x hx
      exact ⟨v2, d2, List.mem_cons_of_mem _ hm, hnv, ht, hc, hx2⟩
    · rw [if_neg hv] at h
      cases htime : d.time with
      | none => rw [htime] at h; cases hcost : d.cost <;> rw [hcost] at h <;> simp at h
      | some t =>
        rw [htime] at h
        cases hcost : d.cost with
        | none => rw [hcost] at h; simp at h
        | some c =>
          rw [hcost] at h
          cases hrec : expand a b w path vis rest with
          | error er => rw [hrec] at h; simp at h
          | ok es2 =>
            rw [hrec] at h
            simp only [Except.ok.injEq] at h
            subst h
            intro x hx
            rcases List.mem_cons.mp hx with hx1 | hx2
            · refine ⟨v, d, List.mem_cons_self .., hv, by simp [htime], by simp [hcost], ?_⟩
              rw [hx1]
              simp [eW, htime, hcost]
            · obtain ⟨v2, d2, hm, hnv, ht, hc, hx3⟩ := ih hrec x hx2
              exact ⟨v2, d2, List.mem_cons_of_mem _ hm, hnv, ht, hc, hx3⟩

theorem expand_ok_complete {a b w : ℚ} {path vis : List String} {l : List (String × EdgeData)}
    {es : List Entry} (h : expand a b w path vis l = .ok es)
    {v : String} {d : EdgeData} (hm : (v, d) ∈ l) (hnv : v ∉ vis) :
    (⟨w + eW a b d, v, path⟩ : Entry) ∈ es := by
  induction l generalizing es with
  | nil => simp at hm
  | cons p rest ih =>
    obtain ⟨v2, d2⟩ := p
    simp only [expand] at h
    by_cases hv2 : v2 ∈ vis
    · rw [if_pos hv2] at h
      rcases List.mem_cons.mp hm with heq | hmem
      · obtain ⟨h1, _⟩ := Prod.mk.injEq .. ▸ heq
        exact absurd (h1 ▸ hv2) hnv
      · exact ih h hmem
    · rw [if_neg hv2] at h
      cases htime : d2.time with
      | none => rw [htime] at h; cases hcost : d2.cost <;> rw [hcost] at h <;> simp at h
      | some t =>
        rw [htime] at h
        cases hcost : d2.cost with
        | none => rw [hcost] at h; simp at h
        | some c =>
          rw [hcost] at h
          cases hrec : expand a b w path vis rest with
          | error er => rw [hrec] at h; simp at h
          | ok es2 =>
            rw [hrec] at h
            simp only [Except.ok.injEq] at h
            subst h
            rcases List.mem_cons.mp hm with heq | hmem
            · obtain ⟨h1, h2⟩ := Prod.mk.injEq .. ▸ heq
              subst h1
              subst h2
              have hew : eW a b d = a * t + b * c := by simp [eW, htime, hcost]
              rw [hew]
              exact List.mem_cons_self ..
            · exact List.mem_cons_of_mem _ (ih hrec hmem)

theorem expand_length {a b w : ℚ} {path vis : List String} {l : List (String × EdgeData)}
    {es : List Entry} (h : expand a b w path vis l = .ok es) : es.length ≤ l.length := by
  induction l generalizing es with
  | nil =>
    simp only [expand, Except.ok.injEq] at h
    simp [← h]
  | cons p rest ih =>
    obtain ⟨v, d⟩ := p
    simp only [expand] at h
    by_cases hv : v ∈ vis
    · rw [if_pos hv] at h
      exact le_trans (ih h) (by simp)
    · rw [if_neg hv] at h
      cases htime : d.time with
      | none => rw [htime] at h; cases hcost : d.cost <;> rw [hcost] at h <;> simp at h
      | some t =>
        rw [htime] at h
        cases hcost : d.cost with
        | none => rw [hcost] at h; simp at h
        | some c =>
          rw [hcost] at h
          cases hrec : expand a b w path vis rest with
          | error er => rw [hrec] at h; simp at h
          | ok es2 =>
            rw [hrec] at h
            simp only [Except.ok.injEq] at h
            subst h
            simpa using Nat.succ_le_succ (ih hrec)

theorem expand_total {a b w : ℚ} {path vis : List String} {l : List (String × EdgeData)}
    (hattr : ∀ q ∈ l, (q.2.time).isSome ∧ (q.2.cost).isSome) :
    ∃ es, expand a b w path vis l = .ok es := by
  induction l with
  | nil => exact ⟨[], rfl⟩
  | cons p rest ih =>
    obtain ⟨v, d⟩ := p
    obtain ⟨ht, hc⟩ := hattr (v, d) (List.mem_cons_self ..)
    simp only at ht hc
    obtain ⟨es, hes⟩ := ih (fun q hq => hattr q (List.mem_cons_of_mem _ hq))
    by_cases hv : v ∈ vis
    · exact ⟨es, by simp only [expand, if_pos hv]; exact hes⟩
    · obtain ⟨t, htt⟩ := Option.isSome_iff_exists.mp ht
      obtain ⟨c, hcc⟩ := Option.isSome_iff_exists.mp hc
      refine ⟨⟨w + (a * t + b * c), v, path⟩ :: es, ?_⟩
      simp only [expand, if_neg hv, htt, hcc, hes]

/-! ### Fuel sufficiency -/

theorem filter_imp_length {p q : String → Bool} (hpq : ∀ x, p x = true → q x = true) :
    ∀ l : List String, (l.filter p).length ≤ (l.filter q).length := by
  intro l
  induction l with
  | nil => simp
  | cons x l ih =>
    by_cases hp : p x = true
    · simp [List.filter_cons, hp, hpq x hp]
      omega
    · simp only [List.filter_cons, Bool.not_eq_true] at hp ⊢
      rw [hp]
      simp only [Bool.false_eq_true, if_false]
      refine le_trans ih ?_
      by_cases hq : q x = true <;> simp [hq]

theorem filter_cons_succ_le {l : List String} {n : String} {vis : List String}
    (hn : n ∈ l) (hnv : n ∉ vis) :
    (l.filter (fun x => decide (x ∉ n :: vis))).length + 1 ≤
      (l.filter (fun x => decide (x ∉ vis))).length := by
  induction l with
  | nil => simp at hn
  | cons x l ih =>
    have hmono : ∀ m : List String,
        (m.filter (fun y => decide (y ∉ n :: vis))).length ≤
          (m.filter (fun y => decide (y ∉ vis))).length := by
      intro m
      refine filter_imp_length (fun y hy => ?_) m
      simp only [decide_eq_true_eq, List.mem_cons, not_or] at hy ⊢
      exact hy.2
    by_cases hxn : x = n
    · subst hxn
      have h1 : (decide (x ∉ x :: vis)) = false := by simp
      have h2 : (decide (x ∉ vis)) = true := by simpa using hnv
      simp only [List.filter_cons, h1, h2, Bool.false_eq_true, if_false, if_true]
      simpa using Nat.succ_le_succ (hmono l)
    · have hn2 : n ∈ l := by
        rcases List.mem_cons.mp hn with h | h
        · exact absurd h.symm hxn
        · exact h
      by_cases hxv : x ∈ vis
      · have h1 : (decide (x ∉ n :: vis)) = false := by simp [hxv]
        have h2 : (decide (x ∉ vis)) = false := by simp [hxv]
        simp only [List.filter_cons, h1, h2, Bool.false_eq_true, if_false]
        exact ih hn2
      · have h1 : (decide (x ∉ n :: vis)) = true := by simp [hxn, hxv]
        have h2 : (decide (x ∉ vis)) = true := by simpa using hxv
        simp only [List.filter_cons, h1, h2, if_true]
        simpa [Nat.succ_le_succ_iff] using ih hn2

theorem len_le_adjSize {G : Graph} {u : String} {l : List (String × EdgeData)}
    (h : dictGet u G.adj = some l) : l.length ≤ G.adjSize := by
  have hm := dictGet_mem h
  have hmem : l.length ∈ G.adj.map (fun p => p.2.length) := List.mem_map.mpr ⟨(u, l), hm, rfl⟩
  exact List.single_le_sum (fun x _ => Nat.zero_le x) _ hmem

theorem dijkstraLoop_isSome (G : Graph) (dest : String) (a b : ℚ) :
    ∀ (fuel : Nat) (pq : List Entry) (vis : List String),
      pq.length + (1 + G.adjSize) * unvis G vis + 1 ≤ fuel →
      (dijkstraLoop G dest a b fuel pq vis).isSome := by
  intro fuel
  induction fuel with
  | zero => intro pq vis h; omega
  | succ fuel ih =>
    intro pq vis h
    rw [dijkstraLoop]
    cases hpop : popMin pq with
    | none => simp
    | some pr =>
      obtain ⟨e, rest⟩ := pr
      simp only
      by_cases hv : e.node ∈ vis
      · rw [if_pos hv]
        apply ih
        have := popMin_length hpop
        omega
      · rw [if_neg hv]
        by_cases hd : e.node = dest
        · simp [hd]
        · rw [if_neg hd]
          cases hget : dictGet e.node G.adj with
          | none => simp
          | some l =>
            simp only
            cases hexp : expand a b e.weight (e.path ++ [e.node]) (e.node :: vis) l with
            | error er => simp
            | ok pushes =>
              simp only
              apply ih
              have hlen := popMin_length hpop
              have hpl : pushes.length ≤ l.length := expand_length hexp
              have hla : l.length ≤ G.adjSize := len_le_adjSize hget
              have hnn : e.node ∈ G.nodeList := mem_keys_of_dictGet hget
              have huv : unvis G (e.node :: vis) + 1 ≤ unvis G vis := filter_cons_succ_le hnn hv
              have hmul : (1 + G.adjSize) * (unvis G (e.node :: vis) + 1) ≤
                  (1 + G.adjSize) * unvis G vis := Nat.mul_le_mul_left _ huv
              rw [Nat.mul_add, Nat.mul_one] at hmul
              have hl2 : (rest ++ pushes).length = rest.length + pushes.length :=
                List.length_append ..
              omega

theorem unvis_nil (G : Graph) : unvis G [] = G.nodeList.length := by
  simp [unvis]

/-- Running the loop at the wrapper's fuel always completes, and the wrapper
returns exactly the completed run's value. -/
theorem mcd_run (G : Graph) (source dest : String) (a b : ℚ) :
    ∃ r, dijkstraLoop G dest a b G.fuel [⟨0, source, []⟩] [] = some r ∧
      multi_criteria_dijkstra G source dest a b = r := by
  have hs : (dijkstraLoop G dest a b G.fuel [⟨0, source, []⟩] []).isSome := by
    apply dijkstraLoop_isSome
    rw [unvis_nil]
    have : G.nodeList.length = G.adj.length := by simp [Graph.nodeList]
    rw [this, Graph.fuel]
    simp only [List.length_singleton]
    omega
  obtain ⟨r, hr⟩ := Option.isSome_iff_exists.mp hs
  exact ⟨r, hr, by rw [multi_criteria_dijkstra, hr]; rfl⟩

/-! ### Path lemmas -/

theorem PathTo.ne_nil {G : Graph} {s v : String} {p : List String}
    (h : PathTo G s v p) : p ≠ [] := by
  induction h with
  | single => simp
  | cons v w p d hp hlook ih => simp

theorem PathTo.head_eq {G : Graph} {s v : String} {p : List String}
    (h : PathTo G s v p) : p.head? = some s := by
  induction h with
  | single => rfl
  | cons v w p d hp hlook ih =>
    cases p with
    | nil => exact absurd rfl hp.ne_nil
    | cons x xs => simpa using ih

theorem PathTo.getLast_eq {G : Graph} {s v : String} {p : List String}
    (h : PathTo G s v p) : p.getLast? = some v := by
  induction h with
  | single => rfl
  | cons v w p d hp hlook ih => simp [List.getLast?_concat]

theorem weightOf_concat {G : Graph} {a b : ℚ} {p : List String} {v w : String}
    (hlast : p.getLast? = some v) :
    weightOf G a b (p ++ [w]) = weightOf G a b p +
      (match G.edgeLookup v w with | some d => eW a b d | none => 0) := by
  induction p generalizing v with
  | nil => simp at hlast
  | cons u p ih =>
    cases p with
    | nil =>
      simp only [List.getLast?_singleton, Option.some.injEq] at hlast
      subst hlast
      simp [weightOf]
    | cons u2 p2 =>
      have hlast2 : (u2 :: p2).getLast? = some v := by
        rw [← hlast]
        simp [List.getLast?_cons_cons]
      have := ih hlast2
      simp only [List.cons_append, weightOf, List.append_eq] at this ⊢
      rw [this]
      ring

theorem popMin_rest_subset {l : List Entry} {e : Entry} {r : List Entry}
    (h : popMin l = some (e, r)) : ∀ f ∈ r, f ∈ l := by
  obtain ⟨l1, l2, hl, hr⟩ := popMin_split h
  subst hl hr
  intro f hf
  rcases List.mem_append.mp hf with h1 | h2
  · exact List.mem_append.mpr (Or.inl h1)
  · exact List.mem_append.mpr (Or.inr (List.mem_cons_of_mem _ h2))

/-! ### Soundness invariant: every queue entry carries a real path -/

theorem loop_path_sound (G : Graph) (source dest : String) (a b : ℚ) :
    ∀ (fuel : Nat) (pq : List Entry) (vis : List String),
      (∀ e ∈ pq, EntryPath G source vis e) →
      ∀ w p, dijkstraLoop G dest a b fuel pq vis = some (.ok (w, p)) → p ≠ [] →
        ∃ wq : ℚ, w = (wq : WithTop ℚ) ∧ PathTo G source dest p ∧ p.Nodup := by
  intro fuel
  induction fuel with
  | zero => intro pq vis _ w p h hne; simp [dijkstraLoop] at h
  | succ fuel ih =>
    intro pq vis hinv w p hrun hne
    rw [dijkstraLoop] at hrun
    cases hpop : popMin pq with
    | none =>
      rw [hpop] at hrun
      simp only [Option.some.injEq, Except.ok.injEq, Prod.mk.injEq] at hrun
      exact absurd hrun.2.symm hne
    | some pr =>
      obtain ⟨e, rest⟩ := pr
      rw [hpop] at hrun
      simp only at hrun
      by_cases hv : e.node ∈ vis
      · rw [if_pos hv] at hrun
        exact ih rest vis (fun f hf => hinv f (popMin_rest_subset hpop f hf)) w p hrun hne
      · rw [if_neg hv] at hrun
        by_cases hd : e.node = dest
        · rw [if_pos hd] at hrun
          simp only [Option.some.injEq, Except.ok.injEq, Prod.mk.injEq] at hrun
          obtain ⟨hw, hp⟩ := hrun
          have he := hinv e (popMin_mem hpop)
          exact ⟨e.weight, hw.symm, hp ▸ (hd ▸ he.1), hp ▸ he.2.1⟩
        · rw [if_neg hd] at hrun
          cases hget : dictGet e.node G.adj with
          | none => rw [hget] at hrun; simp at hrun
          | some l =>
            rw [hget] at hrun
            simp only at hrun
            cases hexp : expand a b e.weight (e.path ++ [e.node]) (e.node :: vis) l with
            | error er => rw [hexp] at hrun; simp at hrun
            | ok pushes =>
              rw [hexp] at hrun
              refine ih (rest ++ pushes) (e.node :: vis) ?_ w p hrun hne
              intro f hf
              rcases List.mem_append.mp hf with hf1 | hf2
              · obtain ⟨h1, h2, h3⟩ := hinv f (popMin_rest_subset hpop f hf1)
                exact ⟨h1, h2, fun x hx => List.mem_cons_of_mem _ (h3 x hx)⟩
              · obtain ⟨v2, d2, hm, hnv, ht, hc, hx⟩ := expand_ok_mem hexp f hf2
                subst hx
                obtain ⟨he1, he2, he3⟩ := hinv e (popMin_mem hpop)
                have hsub : ∀ x ∈ e.path ++ [e.node], x ∈ e.node :: vis := by
                  intro x hx
                  rcases List.mem_append.mp hx with h1 | h2
                  · exact List.mem_cons_of_mem _ (he3 x h1)
                  · simp only [List.mem_singleton] at h2
                    simp [h2]
                refine ⟨?_, ?_, ?_⟩
                · obtain ⟨d3, hd3⟩ := dictGet_isSome_of_mem hm
                  exact PathTo.cons _ _ _ d3 he1 (by rw [Graph.edgeLookup, hget]; exact hd3)
                · rw [List.nodup_append]
                  refine ⟨he2, List.nodup_singleton _, ?_⟩
                  intro x hx1 hx2
                  simp only [List.mem_singleton] at hx2
                  subst hx2
                  exact hnv (hsub x hx1)
                · exact hsub

/-! ### Weighted soundness: the returned weight is the returned path's weight -/

theorem loop_weight_sound (G : Graph) (source dest : String) (a b : ℚ) (hWF : G.WF) :
    ∀ (fuel : Nat) (pq : List Entry) (vis : List String),
      (∀ e ∈ pq, EntryPath G source vis e ∧ weightOf G a b (e.path ++ [e.node]) = e.weight) →
      ∀ w p, dijkstraLoop G dest a b fuel pq vis = some (.ok (w, p)) → p ≠ [] →
        w = ((weightOf G a b p : ℚ) : WithTop ℚ) := by
  intro fuel
  induction fuel with
  | zero => intro pq vis _ w p h hne; simp [dijkstraLoop] at h
  | succ fuel ih =>
    intro pq vis hinv w p hrun hne
    rw [dijkstraLoop] at hrun
    cases hpop : popMin pq with
    | none =>
      rw [hpop] at hrun
      simp only [Option.some.injEq, Except.ok.injEq, Prod.mk.injEq] at hrun
      exact absurd hrun.2.symm hne
    | some pr =>
      obtain ⟨e, rest⟩ := pr
      rw [hpop] at hrun
      simp only at hrun
      by_cases hv : e.node ∈ vis
      · rw [if_pos hv] at hrun
        exact ih rest vis (fun f hf => hinv f (popMin_rest_subset hpop f hf)) w p hrun hne
      · rw [if_neg hv] at hrun
        by_cases hd : e.node = dest
        · rw [if_pos hd] at hrun
          simp only [Option.some.injEq, Except.ok.injEq, Prod.mk.injEq] at hrun
          obtain ⟨hw, hp⟩ := hrun
          have he := (hinv e (popMin_mem hpop)).2
          rw [← hw, ← hp, he]
        · rw [if_neg hd] at hrun
          cases hget : dictGet e.node G.adj with
          | none => rw [hget] at hrun; simp at hrun
          | some l =>
            rw [hget] at hrun
            simp only at hrun
            cases hexp : expand a b e.weight (e.path ++ [e.node]) (e.node :: vis) l with
            | error er => rw [hexp] at hrun; simp at hrun
            | ok pushes =>
              rw [hexp] at hrun
              refine ih (rest ++ pushes) (e.node :: vis) ?_ w p hrun hne
              intro f hf
              rcases List.mem_append.mp hf with hf1 | hf2
              · obtain ⟨⟨h1, h2, h3⟩, h4⟩ := hinv f (popMin_rest_subset hpop f hf1)
                exact ⟨⟨h1, h2, fun x hx => List.mem_cons_of_mem _ (h3 x hx)⟩, h4⟩
              · obtain ⟨v2, d2, hm, hnv, ht, hc, hx⟩ := expand_ok_mem hexp f hf2
                subst hx
                obtain ⟨⟨he1, he2, he3⟩, he4⟩ := hinv e (popMin_mem hpop)
                have hsub : ∀ x ∈ e.path ++ [e.node], x ∈ e.node :: vis := by
                  intro x hx
                  rcases List.mem_append.mp hx with h1 | h2
                  · exact List.mem_cons_of_mem _ (he3 x h1)
                  · simp only [List.mem_singleton] at h2
                    simp [h2]
                have hlnd : (l.map Prod.fst).Nodup := hWF.2 (e.node, l) (dictGet_mem hget)
                have hlook : G.edgeLookup e.node v2 = some d2 := by
                  rw [Graph.edgeLookup, hget]
                  exact dictGet_of_mem_nodup hlnd hm
                refine ⟨⟨?_, ?_, ?_⟩, ?_⟩
                · exact PathTo.cons _ _ _ d2 he1 hlook
                · rw [List.nodup_append]
                  refine ⟨he2, List.nodup_singleton _, ?_⟩
                  intro x hx1 hx2
                  simp only [List.mem_singleton] at hx2
                  subst hx2
                  exact hnv (hsub x hx1)
                · exact hsub
                · have hlast : (e.path ++ [e.node]).getLast? = some e.node :=
                    List.getLast?_concat _
                  have hcat := weightOf_concat (G := G) (a := a) (b := b) (w := v2) hlast
                  simp only [hlook] at hcat
                  simp only [hcat, he4]

/-! ### Unreachable destination: the frontier drains and the loop reports no path -/

theorem loop_unreachable (G : Graph) (source dest : String) (a b : ℚ)
    (hattr : G.HasTimeCost) (hclosed : G.Closed) (hunreach : ¬ Reachable G source dest) :
    ∀ (fuel : Nat) (pq : List Entry) (vis : List String),
      (∀ e ∈ pq, PathTo G source e.node (e.path ++ [e.node]) ∧ e.node ∈ G.nodeList) →
      ∀ r, dijkstraLoop G dest a b fuel pq vis = some r → r = .ok (⊤, []) := by
  intro fuel
  induction fuel with
  | zero => intro pq vis _ r h; simp [dijkstraLoop] at h
  | succ fuel ih =>
    intro pq vis hinv r hrun
    rw [dijkstraLoop] at hrun
    cases hpop : popMin pq with
    | none =>
      rw [hpop] at hrun
      simp only [Option.some.injEq] at hrun
      exact hrun.symm
    | some pr =>
      obtain ⟨e, rest⟩ := pr
      rw [hpop] at hrun
      simp only at hrun
      by_cases hv : e.node ∈ vis
      · rw [if_pos hv] at hrun
        exact ih rest vis (fun f hf => hinv f (popMin_rest_subset hpop f hf)) r hrun
      · rw [if_neg hv] at hrun
        by_cases hd : e.node = dest
        · exact absurd ⟨e.path ++ [e.node], hd ▸ (hinv e (popMin_mem hpop)).1⟩ hunreach
        · rw [if_neg hd] at hrun
          cases hget : dictGet e.node G.adj with
          | none =>
            obtain ⟨l, hl⟩ := dictGet_isSome_of_mem_keys (hinv e (popMin_mem hpop)).2
            rw [hl] at hget
            simp at hget
          | some l =>
            rw [hget] at hrun
            simp only at hrun
            cases hexp : expand a b e.weight (e.path ++ [e.node]) (e.node :: vis) l with
            | error er =>
              obtain ⟨es, hes⟩ := expand_total
                (fun q hq => hattr (e.node, l) (dictGet_mem hget) q hq)
              rw [hes] at hexp
              simp at hexp
            | ok pushes =>
              rw [hexp] at hrun
              refine ih (rest ++ pushes) (e.node :: vis) ?_ r hrun
              intro f hf
              rcases List.mem_append.mp hf with hf1 | hf2
              · exact hinv f (popMin_rest_subset hpop f hf1)
              · obtain ⟨v2, d2, hm, hnv, ht, hc, hx⟩ := expand_ok_mem hexp f hf2
                subst hx
                obtain ⟨he1, _⟩ := hinv e (popMin_mem hpop)
                obtain ⟨d3, hd3⟩ := dictGet_isSome_of_mem hm
                refine ⟨PathTo.cons _ _ _ d3 he1 (by rw [Graph.edgeLookup, hget]; exact hd3), ?_⟩
                exact hclosed (e.node, l) (dictGet_mem hget) (v2, d2) hm

/-! ### Optimality machinery -/

theorem edgeLookup_parts {G : Graph} {u v : String} {d : EdgeData}
    (h : G.edgeLookup u v = some d) :
    ∃ l, dictGet u G.adj = some l ∧ dictGet v l = some d := by
  unfold Graph.edgeLookup at h
  cases hg : dictGet u G.adj with
  | none => rw [hg] at h; simp at h
  | some l => rw [hg] at h; exact ⟨l, rfl, h⟩

theorem eW_nonneg {G : Graph} {a b : ℚ} (ha : 0 ≤ a) (hb : 0 ≤ b)
    (hnn : G.NonnegWeights) {u v : String} {d : EdgeData}
    (h : G.edgeLookup u v = some d) : 0 ≤ eW a b d := by
  obtain ⟨l, hg, hd⟩ := edgeLookup_parts h
  obtain ⟨⟨_, htn⟩, ⟨_, hcn⟩⟩ := hnn (u, l) (dictGet_mem hg) (v, d) (dictGet_mem hd)
  simp only at htn hcn
  unfold eW
  exact add_nonneg (mul_nonneg ha htn) (mul_nonneg hb hcn)

theorem frontier_exists (G : Graph) (source : String) (a b : ℚ)
    (ha : 0 ≤ a) (hb : 0 ≤ b) (hnn : G.NonnegWeights)
    {pq : List Entry} {vis : List String}
    (hsrc : SourceInv source pq vis) (hbd : BoundaryInv G source a b pq vis) :
    ∀ {v : String} {P : List String}, PathTo G source v P → v ∉ vis →
      ∃ f ∈ pq, f.weight ≤ weightOf G a b P := by
  intro v P hP
  induction hP with
  | single =>
    intro hv
    obtain ⟨f, hfm, _, hfw⟩ := hsrc hv
    exact ⟨f, hfm, by simpa [weightOf] using hfw⟩
  | cons v2 w p d hp hlook ih =>
    intro hw
    have hlast : p.getLast? = some v2 := hp.getLast_eq
    have hcat := weightOf_concat (G := G) (a := a) (b := b) (w := w) hlast
    simp only [hlook] at hcat
    by_cases hv2 : v2 ∈ vis
    · obtain ⟨l, hg, hd⟩ := edgeLookup_parts hlook
      obtain ⟨f, hfm, _, hfw⟩ := hbd v2 hv2 l hg w d (dictGet_mem hd) hw
      exact ⟨f, hfm, by rw [hcat]; exact hfw p hp⟩
    · obtain ⟨f, hfm, hfw⟩ := ih hv2
      have h0 : 0 ≤ eW a b d := eW_nonneg ha hb hnn hlook
      exact ⟨f, hfm, by rw [hcat]; linarith⟩

theorem popMin_optimal (G : Graph) (source : String) (a b : ℚ)
    (ha : 0 ≤ a) (hb : 0 ≤ b) (hnn : G.NonnegWeights)
    {pq rest : List Entry} {vis : List String} {e : Entry}
    (hpop : popMin pq = some (e, rest))
    (hsrc : SourceInv source pq vis) (hbd : BoundaryInv G source a b pq vis)
    (hv : e.node ∉ vis) :
    ∀ P, PathTo G source e.node P → e.weight ≤ weightOf G a b P := by
  intro P hP
  obtain ⟨f, hfm, hfw⟩ := frontier_exists G source a b ha hb hnn hsrc hbd hP hv
  exact le_trans (popMin_min hpop f hfm) hfw

theorem loop_correct (G : Graph) (source dest : String) (a b : ℚ)
    (hWF : G.WF) (hclosed : G.Closed) (hnn : G.NonnegWeights)
    (ha : 0 ≤ a) (hb : 0 ≤ b) (hreach : Reachable G source dest) :
    ∀ (fuel : Nat) (pq : List Entry) (vis : List String),
      (∀ e ∈ pq, EntryPath G source vis e ∧
        weightOf G a b (e.path ++ [e.node]) = e.weight ∧ e.node ∈ G.nodeList) →
      SourceInv source pq vis → BoundaryInv G source a b pq vis → dest ∉ vis →
      ∀ r, dijkstraLoop G dest a b fuel pq vis = some r →
        ∃ (wq : ℚ) (p : List String), r = .ok ((wq : WithTop ℚ), p) ∧
          PathTo G source dest p ∧ weightOf G a b p = wq ∧ p.Nodup ∧
          ∀ q, PathTo G source dest q → wq ≤ weightOf G a b q := by
  intro fuel
  induction fuel with
  | zero => intro pq vis _ _ _ _ r h; simp [dijkstraLoop] at h
  | succ fuel ih =>
    intro pq vis hinv hsrc hbd hdv r hrun
    rw [dijkstraLoop] at hrun
    cases hpop : popMin pq with
    | none =>
      obtain ⟨P, hP⟩ := hreach
      obtain ⟨f, hfm, _⟩ := frontier_exists G source a b ha hb hnn hsrc hbd hP hdv
      rw [popMin_eq_none.mp hpop] at hfm
      simp at hfm
    | some pr =>
      obtain ⟨e, rest⟩ := pr
      rw [hpop] at hrun
      simp only at hrun
      by_cases hv : e.node ∈ vis
      · rw [if_pos hv] at hrun
        refine ih rest vis (fun f hf => hinv f (popMin_rest_subset hpop f hf)) ?_ ?_ hdv r hrun
        · intro hs
          obtain ⟨f, hfm, hfn, hfw⟩ := hsrc hs
          have hfe : f ≠ e := fun hc => hs (hfn ▸ hc ▸ hv)
          exact ⟨f, popMin_mem_rest hpop hfm hfe, hfn, hfw⟩
        · intro v hvv l hl m d hm hmv
          obtain ⟨f, hfm, hfn, hfw⟩ := hbd v hvv l hl m d hm hmv
          have hfe : f ≠ e := fun hc => hmv (hfn ▸ hc ▸ hv)
          exact ⟨f, popMin_mem_rest hpop hfm hfe, hfn, hfw⟩
      · rw [if_neg hv] at hrun
        have hopt := popMin_optimal G source a b ha hb hnn hpop hsrc hbd hv
        obtain ⟨⟨he1, he2, he3⟩, he4, he5⟩ := hinv e (popMin_mem hpop)
        by_cases hd : e.node = dest
        · rw [if_pos hd] at hrun
          simp only [Option.some.injEq] at hrun
          refine ⟨e.weight, e.path ++ [e.node], hrun.symm, hd ▸ he1, he4, he2, ?_⟩
          intro q hq
          exact hopt q (hd ▸ hq)
        · rw [if_neg hd] at hrun
          cases hget : dictGet e.node G.adj with
          | none =>
            obtain ⟨l, hl⟩ := dictGet_isSome_of_mem_keys he5
            rw [hl] at hget
            simp at hget
          | some l =>
            rw [hget] at hrun
            simp only at hrun
            cases hexp : expand a b e.weight (e.path ++ [e.node]) (e.node :: vis) l with
            | error er =>
              obtain ⟨es, hes⟩ := expand_total (fun q hq =>
                ⟨(hnn (e.node, l) (dictGet_mem hget) q hq).1.1,
                 (hnn (e.node, l) (dictGet_mem hget) q hq).2.1⟩)
              rw [hes] at hexp
              simp at hexp
            | ok pushes =>
              rw [hexp] at hrun
              have hsub : ∀ x ∈ e.path ++ [e.node], x ∈ e.node :: vis := by
                intro x hx
                rcases List.mem_append.mp hx with h1 | h2
                · exact List.mem_cons_of_mem _ (he3 x h1)
                · simp only [List.mem_singleton] at h2
                  simp [h2]
              have hlnd : (l.map Prod.fst).Nodup := hWF.2 (e.node, l) (dictGet_mem hget)
              refine ih (rest ++ pushes) (e.node :: vis) ?_ ?_ ?_ ?_ r hrun
              · intro f hf
                rcases List.mem_append.mp hf with hf1 | hf2
                · obtain ⟨⟨h1, h2, h3⟩, h4, h5⟩ := hinv f (popMin_rest_subset hpop f hf1)
                  exact ⟨⟨h1, h2, fun x hx => List.mem_cons_of_mem _ (h3 x hx)⟩, h4, h5⟩
                · obtain ⟨v2, d2, hm, hnv, ht, hc, hx⟩ := expand_ok_mem hexp f hf2
                  subst hx
                  have hlook : G.edgeLookup e.node v2 = some d2 := by
                    rw [Graph.edgeLookup, hget]
                    exact dictGet_of_mem_nodup hlnd hm
                  refine ⟨⟨PathTo.cons _ _ _ d2 he1 hlook, ?_, hsub⟩, ?_, ?_⟩
                  · rw [List.nodup_append]
                    refine ⟨he2, List.nodup_singleton _, ?_⟩
                    intro x hx1 hx2
                    simp only [List.mem_singleton] at hx2
                    subst hx2
                    exact hnv (hsub x hx1)
                  · have hlast : (e.path ++ [e.node]).getLast? = some e.node :=
                      List.getLast?_concat _
                    have hcat := weightOf_concat (G := G) (a := a) (b := b) (w := v2) hlast
                    simp only [hlook] at hcat
                    simp only [hcat, he4]
                  · exact hclosed (e.node, l) (dictGet_mem hget) (v2, d2) hm
              · intro hs
                simp only [List.mem_cons, not_or] at hs
                obtain ⟨f, hfm, hfn, hfw⟩ := hsrc hs.2
                have hfe : f ≠ e := fun hc => hs.1 (by rw [← hfn, hc])
                exact ⟨f, List.mem_append.mpr (Or.inl (popMin_mem_rest hpop hfm hfe)), hfn, hfw⟩
              · intro v hvv l2 hl2 m d hm hmv
                simp only [List.mem_cons, not_or] at hmv
                rcases List.mem_cons.mp hvv with hveq | hvold
                · subst hveq
                  rw [hget] at hl2
                  obtain rfl : l2 = l := by injection hl2 with h2; exact h2.symm
                  have hpush := expand_ok_complete hexp hm (by
                    simp only [List.mem_cons, not_or]
                    exact hmv)
                  refine ⟨⟨e.weight + eW a b d, m, e.path ++ [e.node]⟩,
                    List.mem_append.mpr (Or.inr hpush), rfl, ?_⟩
                  intro Q hQ
                  have := hopt Q hQ
                  simp only
                  linarith
                · obtain ⟨f, hfm, hfn, hfw⟩ := hbd v hvold l2 hl2 m d hm hmv.2
                  have hfe : f ≠ e := fun hc => hmv.1 (by rw [← hfn, hc])
                  exact ⟨f, List.mem_append.mpr (Or.inl (popMin_mem_rest hpop hfm hfe)), hfn, hfw⟩
              · simp only [List.mem_cons, not_or]
                exact ⟨fun hc => hd hc.symm, hdv⟩

/-! ### Top-level behavior of multi_criteria_dijkstra -/

theorem seed_entry_path (G : Graph) (source : String) :
    PathTo G source source (([] : List String) ++ [source]) := by
  rw [List.nil_append]
  exact PathTo.single

theorem mcd_self (G : Graph) (s : String) (a b : ℚ) :
    multi_criteria_dijkstra G s s a b = .ok (((0 : ℚ) : WithTop ℚ), [s]) := by
  have hf : G.fuel = ((1 + G.adjSize) * G.adj.length + 1) + 1 := by rw [Graph.fuel]
  rw [multi_criteria_dijkstra, hf, dijkstraLoop]
  simp [popMin]

theorem mcd_missing_source (G : Graph) {s : String} {d : String} (a b : ℚ)
    (hs : s ∉ G.nodeList) (hsd : s ≠ d) :
    multi_criteria_dijkstra G s d a b = .error (.nodeNotFound s) := by
  have hf : G.fuel = ((1 + G.adjSize) * G.adj.length + 1) + 1 := by rw [Graph.fuel]
  have hg : dictGet s G.adj = none := dictGet_none_of_not_mem_keys hs
  rw [multi_criteria_dijkstra, hf, dijkstraLoop]
  simp [popMin, hsd, hg]

theorem mcd_path_sound (G : Graph) (source dest : String) (a b : ℚ)
    {w : WithTop ℚ} {p : List String}
    (hm : multi_criteria_dijkstra G source dest a b = .ok (w, p)) (hne : p ≠ []) :
    ∃ wq : ℚ, w = (wq : WithTop ℚ) ∧ PathTo G source dest p ∧ p.Nodup := by
  cases hl : dijkstraLoop G dest a b G.fuel [⟨0, source, []⟩] [] with
  | none =>
    rw [multi_criteria_dijkstra, hl] at hm
    simp only [Option.getD_none, Except.ok.injEq, Prod.mk.injEq] at hm
    exact absurd hm.2.symm hne
  | some r =>
    rw [multi_criteria_dijkstra, hl] at hm
    simp only [Option.getD_some] at hm
    refine loop_path_sound G source dest a b G.fuel _ [] ?_ w p (by rw [hl, hm]) hne
    intro e he
    simp only [List.mem_singleton] at he
    subst he
    exact ⟨seed_entry_path G source, by simp, by simp⟩

theorem mcd_weight_eq (G : Graph) (source dest : String) (a b : ℚ) (hWF : G.WF)
    {w : WithTop ℚ} {p : List String}
    (hm : multi_criteria_dijkstra G source dest a b = .ok (w, p)) (hne : p ≠ []) :
    w = ((weightOf G a b p : ℚ) : WithTop ℚ) := by
  cases hl : dijkstraLoop G dest a b G.fuel [⟨0, source, []⟩] [] with
  | none =>
    rw [multi_criteria_dijkstra, hl] at hm
    simp only [Option.getD_none, Except.ok.injEq, Prod.mk.injEq] at hm
    exact absurd hm.2.symm hne
  | some r =>
    rw [multi_criteria_dijkstra, hl] at hm
    simp only [Option.getD_some] at hm
    refine loop_weight_sound G source dest a b hWF G.fuel _ [] ?_ w p (by rw [hl, hm]) hne
    intro e he
    simp only [List.mem_singleton] at he
    subst he
    refine ⟨⟨seed_entry_path G source, by simp, by simp⟩, ?_⟩
    simp [weightOf]

theorem mcd_unreachable (G : Graph) (source dest : String) (a b : ℚ)
    (hattr : G.HasTimeCost) (hclosed : G.Closed) (hs : source ∈ G.nodeList)
    (hunreach : ¬ Reachable G source dest) :
    multi_criteria_dijkstra G source dest a b = .ok (⊤, []) := by
  obtain ⟨r, hr, hmcd⟩ := mcd_run G source dest a b
  rw [hmcd]
  refine loop_unreachable G source dest a b hattr hclosed hunreach G.fuel _ [] ?_ r hr
  intro e he
  simp only [List.mem_singleton] at he
  subst he
  exact ⟨seed_entry_path G source, hs⟩

theorem mcd_optimal (G : Graph) (source dest : String) (a b : ℚ)
    (hWF : G.WF) (hclosed : G.Closed) (hnn : G.NonnegWeights)
    (ha : 0 ≤ a) (hb : 0 ≤ b) (hs : source ∈ G.nodeList)
    (hreach : Reachable G source dest) :
    ∃ (wq : ℚ) (p : List String),
      multi_criteria_dijkstra G source dest a b = .ok ((wq : WithTop ℚ), p) ∧
      PathTo G source dest p ∧ weightOf G a b p = wq ∧ p.Nodup ∧
      ∀ q, PathTo G source dest q → wq ≤ weightOf G a b q := by
  obtain ⟨r, hr, hmcd⟩ := mcd_run G source dest a b
  have hcor := loop_correct G source dest a b hWF hclosed hnn ha hb hreach G.fuel
    [⟨0, source, []⟩] [] ?_ ?_ ?_ (by simp) r hr
  · obtain ⟨wq, p, hr2, h1, h2, h3, h4⟩ := hcor
    exact ⟨wq, p, by rw [hmcd, hr2], h1, h2, h3, h4⟩
  · intro e he
    simp only [List.mem_singleton] at he
    subst he
    refine ⟨⟨seed_entry_path G source, by simp, by simp⟩, by simp [weightOf], hs⟩
  · intro _
    exact ⟨⟨0, source, []⟩, by simp, rfl, le_refl 0⟩
  · intro v hv
    simp at hv

/-! ### Validator lemmas -/

theorem number_of_nodes_eq_zero {G : Graph} : G.number_of_nodes = 0 ↔ G.adj = [] := by
  rw [Graph.number_of_nodes, List.length_eq_zero]

theorem degree_sum_zero {L : List (String × List (String × EdgeData))}
    (h : ∀ p ∈ L, p.2 = []) :
    (L.map (fun p => p.2.length + (if (dictGet p.1 p.2).isSome then 1 else 0))).sum = 0 := by
  induction L with
  | nil => rfl
  | cons p L ih =>
    rw [List.map_cons, List.sum_cons, ih (fun q hq => h q (List.mem_cons_of_mem _ hq))]
    rw [h p (List.mem_cons_self ..)]
    simp [dictGet]

theorem number_of_edges_zero_of_empty {G : Graph} (h : ∀ p ∈ G.adj, p.2 = []) :
    G.number_of_edges = 0 := by
  rw [Graph.number_of_edges, degree_sum_zero h]

theorem firstMissing_none {L : List (String × String × EdgeData)}
    (h : ∀ x ∈ L, (x.2.2.time).isSome ∧ (x.2.2.cost).isSome ∧ (x.2.2.distance).isSome) :
    firstMissing L = none := by
  induction L with
  | nil => rfl
  | cons x L ih =>
    obtain ⟨u, v, d⟩ := x
    obtain ⟨ht, hc, hdi⟩ := h (u, v, d) (List.mem_cons_self ..)
    simp only at ht hc hdi
    obtain ⟨t, ht2⟩ := Option.isSome_iff_exists.mp ht
    obtain ⟨c, hc2⟩ := Option.isSome_iff_exists.mp hc
    obtain ⟨di, hdi2⟩ := Option.isSome_iff_exists.mp hdi
    rw [firstMissing, ht2, hc2, hdi2]
    simpa using ih (fun q hq => h q (List.mem_cons_of_mem _ hq))

theorem validate_empty {G : Graph} (h : G.adj = []) :
    validate_graph G = (false, "Graph has no nodes") := by
  rw [validate_graph, if_pos (number_of_nodes_eq_zero.mpr h)]

theorem validate_no_edges {G : Graph} (hne : G.adj ≠ []) (h : ∀ p ∈ G.adj, p.2 = []) :
    validate_graph G = (false, "Graph has no edges") := by
  have h1 : ¬ (G.number_of_nodes = 0) := fun hc => hne (number_of_nodes_eq_zero.mp hc)
  rw [validate_graph, if_neg h1, if_pos (number_of_edges_zero_of_empty h)]

theorem validate_success {G : Graph} (hn : G.adj ≠ []) (he : G.number_of_edges ≠ 0)
    (hattr : ∀ x ∈ G.edges_data,
      (x.2.2.time).isSome ∧ (x.2.2.cost).isSome ∧ (x.2.2.distance).isSome) :
    validate_graph G = (true,
      "Graph validation successful. Module-1 output is complete and ready to be used by Module-2.") := by
  have h1 : ¬ (G.number_of_nodes = 0) := fun hc => hn (number_of_nodes_eq_zero.mp hc)
  rw [validate_graph, if_neg h1, if_neg he, firstMissing_none hattr]

/-! ### Concrete instances -/

theorem gTwo_only_self : ∀ (v : String) (q : List String), PathTo gTwo "A" v q → v = "A" := by
  intro v q h
  induction h with
  | single => rfl
  | cons v w q d hq hlook ih =>
    exfalso
    obtain ⟨l, hg, hd⟩ := edgeLookup_parts hlook
    have hm := dictGet_mem hg
    have hl : l = [] := by
      simp only [gTwo, List.mem_cons, List.not_mem_nil, or_false] at hm
      rcases hm with h1 | h1
      · exact (Prod.mk.injEq .. ▸ h1).2
      · exact (Prod.mk.injEq .. ▸ h1).2
    subst hl
    simp [dictGet] at hd

theorem gTwo_no_path : ¬ Reachable gTwo "A" "B" := by
  rintro ⟨p, hp⟩
  have := gTwo_only_self "B" p hp
  simp at this

set_option maxHeartbeats 2000000 in
/-- Evaluation of the fixture search: time-optimal A to F. -/
theorem btg_run : multi_criteria_dijkstra build_transport_graph "A" "F" 1 0 =
    .ok (((33 : ℚ) : WithTop ℚ), ["A", "C", "E", "F"]) := by
  norm_num +decide [multi_criteria_dijkstra, dijkstraLoop, popMin, entryLtB, listLtB, expand,
    build_transport_graph, Graph.add_edge, ensureNode, setAdj, setPair, dictGet,
    Graph.fuel, Graph.adjSize]

/-- Evaluation with an absent destination: the search drains the frontier
and returns the unreachable result instead of failing. -/
theorem gOne_absent_dest_run : multi_criteria_dijkstra gOne "A" "Z" 1 1 = .ok (⊤, []) := by
  norm_num +decide [multi_criteria_dijkstra, dijkstraLoop, popMin, entryLtB, listLtB, expand,
    dictGet, Graph.fuel, Graph.adjSize, gOne]

/-- The fixture path A, C, E, F witnessing reachability of F from A. -/
theorem btg_path_ACEF : PathTo build_transport_graph "A" "F" ["A", "C", "E", "F"] := by
  have h1 : build_transport_graph.edgeLookup "A" "C" = some ⟨some 15, some 4, some 5⟩ := by decide
  have h2 : build_transport_graph.edgeLookup "C" "E" = some ⟨some 10, some 5, some 4⟩ := by decide
  have h3 : build_transport_graph.edgeLookup "E" "F" = some ⟨some 8, some 3, some 2⟩ := by decide
  have p1 : PathTo build_transport_graph "A" "C" (["A"] ++ ["C"]) :=
    PathTo.cons _ _ _ _ PathTo.single h1
  have p2 : PathTo build_transport_graph "A" "E" ((["A"] ++ ["C"]) ++ ["E"]) :=
    PathTo.cons _ _ _ _ p1 h2
  have p3 := PathTo.cons _ _ _ _ p2 h3
  simpa using p3

/-! ## Claims -/

/-- C1: for every finite network whose edges all carry non-negative time and
cost attributes, every alpha ≥ 0 and beta ≥ 0, and every source and
destination present in the network with the destination reachable from the
source, multi_criteria_dijkstra returns a weight equal to the minimum over
all source-to-destination paths of the sum of alpha*time + beta*cost over
the path's edges, together with a path attaining that minimum. -/
theorem C1_shortest_path (G : Graph) (source dest : String) (a b : ℚ)
    (hWF : G.WF) (hclosed : G.Closed) (hnn : G.NonnegWeights)
    (ha : 0 ≤ a) (hb : 0 ≤ b)
    (hs : source ∈ G.nodeList) (_hd : dest ∈ G.nodeList)
    (hreach : Reachable G source dest) :
    ∃ (wq : ℚ) (p : List String),
      multi_criteria_dijkstra G source dest a b = .ok ((wq : WithTop ℚ), p) ∧
      PathTo G source dest p ∧ weightOf G a b p = wq ∧
      ∀ q, PathTo G source dest q → wq ≤ weightOf G a b q := by
  obtain ⟨wq, p, h1, h2, h3, _, h5⟩ :=
    mcd_optimal G source dest a b hWF hclosed hnn ha hb hs hreach
  exact ⟨wq, p, h1, h2, h3, h5⟩

theorem C1_shortest_path_witness :
    ∃ (wq : ℚ) (p : List String),
      multi_criteria_dijkstra build_transport_graph "A" "F" 1 0 = .ok ((wq : WithTop ℚ), p) ∧
      PathTo build_transport_graph "A" "F" p ∧ weightOf build_transport_graph 1 0 p = wq ∧
      ∀ q, PathTo build_transport_graph "A" "F" q → wq ≤ weightOf build_transport_graph 1 0 q :=
  C1_shortest_path build_transport_graph "A" "F" 1 0 (by decide) (by decide) (by decide)
    (by decide) (by decide) (by decide) (by decide) ⟨["A", "C", "E", "F"], btg_path_ACEF⟩

/-- C2: whenever multi_criteria_dijkstra returns a non-empty path, the
returned weight equals the sum of alpha*time + beta*cost over the routes
between consecutive stop pairs of the returned path. -/
theorem C2_weight_path_consistency (G : Graph) (source dest : String) (a b : ℚ)
    (hWF : G.WF) {w : WithTop ℚ} {p : List String}
    (hm : multi_criteria_dijkstra G source dest a b = .ok (w, p)) (hne : p ≠ []) :
    w = ((weightOf G a b p : ℚ) : WithTop ℚ) :=
  mcd_weight_eq G source dest a b hWF hm hne

theorem C2_weight_path_consistency_witness :
    (((33 : ℚ) : WithTop ℚ)) =
      ((weightOf build_transport_graph 1 0 ["A", "C", "E", "F"] : ℚ) : WithTop ℚ) :=
  C2_weight_path_consistency build_transport_graph "A" "F" 1 0 (by decide) btg_run (by decide)

/-- C3: validate_graph returns (False, "Graph has no nodes") on a network
with no stops; (False, "Graph has no edges") on a network with stops but no
routes; and (True, the success message) on a network whose iterated routes
all carry time, cost and distance, checking in that order. -/
theorem C3_validate (G : Graph) :
    (G.adj = [] → validate_graph G = (false, "Graph has no nodes")) ∧
    (G.adj ≠ [] → (∀ p ∈ G.adj, p.2 = []) →
      validate_graph G = (false, "Graph has no edges")) ∧
    (G.adj ≠ [] → G.number_of_edges ≠ 0 →
      (∀ x ∈ G.edges_data,
        (x.2.2.time).isSome ∧ (x.2.2.cost).isSome ∧ (x.2.2.distance).isSome) →
      validate_graph G = (true,
        "Graph validation successful. Module-1 output is complete and ready to be used by Module-2.")) :=
  ⟨fun h => validate_empty h,
   fun h1 h2 => validate_no_edges h1 h2,
   fun h1 h2 h3 => validate_success h1 h2 h3⟩

theorem C3_validate_witness :
    validate_graph ⟨[]⟩ = (false, "Graph has no nodes") ∧
    validate_graph gOne = (false, "Graph has no edges") ∧
    validate_graph build_transport_graph = (true,
      "Graph validation successful. Module-1 output is complete and ready to be used by Module-2.") :=
  ⟨(C3_validate ⟨[]⟩).1 rfl,
   (C3_validate gOne).2.1 (by decide) (by decide),
   (C3_validate build_transport_graph).2.2 (by decide) (by decide) (by decide)⟩

/-- C4: for every network, every stop s in it, and every alpha and beta,
multi_criteria_dijkstra(graph, s, s, alpha, beta) returns weight 0 and the
single-node path [s]. -/
theorem C4_source_eq_destination (G : Graph) (s : String) (a b : ℚ)
    (_hs : s ∈ G.nodeList) :
    multi_criteria_dijkstra G s s a b = .ok (((0 : ℚ) : WithTop ℚ), [s]) :=
  mcd_self G s a b

theorem C4_source_eq_destination_witness :
    multi_criteria_dijkstra build_transport_graph "A" "A" 1 0 =
      .ok (((0 : ℚ) : WithTop ℚ), ["A"]) :=
  C4_source_eq_destination build_transport_graph "A" 1 0 (by decide)

/-- C5: for every network and every source and destination in it between
which no path exists, multi_criteria_dijkstra returns (+infinity, []) as a
normal result value, not by raising an error. -/
theorem C5_unreachable (G : Graph) (source dest : String) (a b : ℚ)
    (hattr : G.HasTimeCost) (hclosed : G.Closed)
    (hs : source ∈ G.nodeList) (_hd : dest ∈ G.nodeList)
    (hunreach : ¬ Reachable G source dest) :
    multi_criteria_dijkstra G source dest a b = .ok (⊤, []) :=
  mcd_unreachable G source dest a b hattr hclosed hs hunreach

theorem C5_unreachable_witness :
    multi_criteria_dijkstra gTwo "A" "B" 1 1 = .ok (⊤, []) :=
  C5_unreachable gTwo "A" "B" 1 1 (by decide) (by decide) (by decide) (by decide) gTwo_no_path

/-- C6 counterexample: the claim says a call whose destination is absent
from the network fails with UnknownStopError; on the one-stop network gOne
with absent destination Z the call instead returns the normal unreachable
value (+infinity, []) and raises nothing. -/
theorem C6_counterexample :
    multi_criteria_dijkstra gOne "A" "Z" 1 1 = .ok (⊤, []) ∧
    "Z" ∉ gOne.nodeList ∧ "A" ∈ gOne.nodeList :=
  ⟨gOne_absent_dest_run, by decide, by decide⟩

/-- C6 amended: only when the source is absent and differs from the
destination does the call fail, with the graph library's node-not-found
error; an absent destination (or an absent source equal to the destination)
is never detected. -/
theorem C6_amended_unknown_source (G : Graph) (s d : String) (a b : ℚ)
    (hs : s ∉ G.nodeList) (hsd : s ≠ d) :
    multi_criteria_dijkstra G s d a b = .error (.nodeNotFound s) :=
  mcd_missing_source G a b hs hsd

theorem C6_amended_unknown_source_witness :
    multi_criteria_dijkstra gOne "Z" "A" 1 1 = .error (.nodeNotFound "Z") :=
  C6_amended_unknown_source gOne "Z" "A" 1 1 (by decide) (by decide)

/-- C7: on the fixture network, the time-optimal search from A to F returns
the algorithmically minimal total time among all A-to-F paths together with
a path attaining it, namely weight 33 via the path A, C, E, F. -/
theorem C7_fixture_time_optimal :
    multi_criteria_dijkstra build_transport_graph "A" "F" 1 0 =
      .ok (((33 : ℚ) : WithTop ℚ), ["A", "C", "E", "F"]) ∧
    weightOf build_transport_graph 1 0 ["A", "C", "E", "F"] = 33 ∧
    ∀ q, PathTo build_transport_graph "A" "F" q →
      (33 : ℚ) ≤ weightOf build_transport_graph 1 0 q := by
  obtain ⟨wq, p, h1, h2, h3, _, h5⟩ := mcd_optimal build_transport_graph "A" "F" 1 0
    (by decide) (by decide) (by decide) (by decide) (by decide) (by decide)
    ⟨["A", "C", "E", "F"], btg_path_ACEF⟩
  rw [btg_run] at h1
  simp only [Except.ok.injEq, Prod.mk.injEq, WithTop.coe_eq_coe] at h1
  obtain ⟨hw, hp⟩ := h1
  refine ⟨btg_run, ?_, ?_⟩
  · rw [hp, h3]
    exact hw.symm
  · rw [← hw] at h5
    exact h5

theorem C7_fixture_time_optimal_witness :
    (33 : ℚ) ≤ weightOf build_transport_graph 1 0 ["A", "C", "E", "F"] :=
  C7_fixture_time_optimal.2.2 ["A", "C", "E", "F"] btg_path_ACEF

/-- C8: for every finite network, every source and destination, and every
alpha and beta (including alpha = beta = 0), the search loop completes
within the statically computed fuel bound: the while loop performs finitely
many iterations. -/
theorem C8_termination (G : Graph) (source dest : String) (a b : ℚ) :
    (dijkstraLoop G dest a b G.fuel [⟨0, source, []⟩] []).isSome := by
  obtain ⟨r, hr, _⟩ := mcd_run G source dest a b
  rw [hr]
  rfl

/-- C9: whenever multi_criteria_dijkstra returns a non-empty path, that path
starts at the source, ends at the destination, has every consecutive stop
pair connected by a route of the network, and repeats no stop. -/
theorem C9_path_invariants (G : Graph) (source dest : String) (a b : ℚ)
    {w : WithTop ℚ} {p : List String}
    (hm : multi_criteria_dijkstra G source dest a b = .ok (w, p)) (hne : p ≠ []) :
    p.head? = some source ∧ p.getLast? = some dest ∧
    PathTo G source dest p ∧ p.Nodup := by
  obtain ⟨wq, _, hp, hnd⟩ := mcd_path_sound G source dest a b hm hne
  exact ⟨hp.head_eq, hp.getLast_eq, hp, hnd⟩

theorem C9_path_invariants_witness :
    (["A", "C", "E", "F"] : List String).head? = some "A" ∧
    (["A", "C", "E", "F"] : List String).getLast? = some "F" ∧
    PathTo build_transport_graph "A" "F" ["A", "C", "E", "F"] ∧
    (["A", "C", "E", "F"] : List String).Nodup :=
  C9_path_invariants build_transport_graph "A" "F" 1 0 btg_run (by decide)

/-- C10: for every network and every identifier s that is not a stop of the
network, multi_criteria_dijkstra(graph, s, s, alpha, beta) still returns
(0, [s]) without raising any error: the source-equals-destination check
fires before any neighbor lookup. -/
theorem C10_absent_source_self (G : Graph) (s : String) (a b : ℚ)
    (_hs : s ∉ G.nodeList) :
    multi_criteria_dijkstra G s s a b = .ok (((0 : ℚ) : WithTop ℚ), [s]) :=
  mcd_self G s a b

theorem C10_absent_source_self_witness :
    multi_criteria_dijkstra gOne "Z" "Z" 1 1 = .ok (((0 : ℚ) : WithTop ℚ), ["Z"]) :=
  C10_absent_source_self gOne "Z" 1 1 (by decide)

end RouteOpt
